import Mathlib

/-!
Verification of the python-valve VDF (Valve Data Format) module.

The repository source (`src/valve/vdf.py`) contains the concrete
transcluders (`VDFIgnoreTranscluder`, `VDFDisabledTranscluder`,
`VDFTestTranscluder`), the tree-building event consumer
(`VDFObjectDecoder`) and the `load`/`loads` entry points; the incremental
tokenizer/parser (`VDFDecoder.feed`/`VDFDecoder.complete`) and the encoder
(`dump`/`dumps`) are empty stubs there and are modelled from the spec.
-/

namespace VDF

/-- A VDF document node: a scalar string or a nested ordered object
(an ordered association list from keys to nodes). -/
inductive VDFNode where
  | scalar (s : String)
  | obj (entries : List (String × VDFNode))

/-- Ordered-dict assignment, as in Python: if the key is present, its value
is overwritten in place (the key keeps its original position); otherwise
the pair is appended at the end. -/
def upsert {α β : Type} [DecidableEq α] : List (α × β) → α → β → List (α × β)
  | [], k, v => [(k, v)]
  | (k', v') :: es, k, v =>
      if k' = k then (k, v) :: es else (k', v') :: upsert es k v

/-- Errors raised while decoding: format (grammar) errors versus
transclusion errors, plus exhaustion of the decoding fuel (the modelling
device that bounds the number of processed characters, including
transcluded ones). -/
inductive VDFErr where
  | fuel
  | fmt (msg : String)
  | transclusion (msg : String)
deriving DecidableEq

/-- A transcluder resolves a name to a sequence of text fragments or
fails with a transclusion error message. -/
def Transcluder : Type := String → Except String (List String)

/-- `VDFIgnoreTranscluder.transclude` from the source: `yield ""`, i.e. it
always succeeds with the single empty fragment. -/
def VDFIgnoreTranscluder : Transcluder := fun _ => .ok [""]

/-- `VDFDisabledTranscluder.transclude` from the source: always raises
`VDFTransclusionError("Transclusion disabled")`. -/
def VDFDisabledTranscluder : Transcluder := fun _ => .error "Transclusion disabled"

/-- `VDFTestTranscluder.transclude` from the source: yields the document
registered under exactly the given name, or raises a transclusion error
if no such name is registered. The registry is the ordered dict
`_documents`. -/
def VDFTestTranscluder (reg : List (String × String)) : Transcluder := fun name =>
  match List.lookup name reg with
  | some doc => .ok [doc]
  | none => .error ("No document with name '" ++ name ++ "'")

/-- `VDFTestTranscluder.register` from the source: raises `LookupError` if
a document with the given name is already registered, otherwise adds the
pair to the registry. -/
def VDFTestTranscluder.register (reg : List (String × String)) (name doc : String) :
    Except String (List (String × String)) :=
  if (List.lookup name reg).isSome then
    .error ("Document with name '" ++ name ++ "' already registered")
  else
    .ok (reg ++ [(name, doc)])

/-- `VDFTestTranscluder.unregister` from the source: raises `LookupError`
if no document with the given name is registered, otherwise removes it. -/
def VDFTestTranscluder.unregister (reg : List (String × String)) (name : String) :
    Except String (List (String × String)) :=
  if (List.lookup name reg).isSome then
    .ok (reg.filter (fun p => p.1 ≠ name))
  else
    .error ("No document with name '" ++ name ++ "'")

/-- Modelled from the spec: tokenizer sub-state for token assembly
(`VDFDecoder.feed` is an empty stub in the source). `ground` is the
between-token state; the others hold a partially consumed unquoted or
quoted token (possibly inside an escape sequence) or a comment. -/
inductive Tok where
  | ground
  | unq (acc : String)
  | unqEsc (acc : String)
  | quo (acc : String)
  | quoEsc (acc : String)
  | comment
deriving DecidableEq

/-- Modelled from the spec: parser state. `expectKey` is the spec's
`ExpectKeyOrClose`, `expectVal k` is `ExpectValueOrBlock` with `k` the
pending key, and `expectDirName`/`expectDirEnd` are the sub-states of a
transclusion directive (after `#base`, awaiting the quoted name, then
awaiting the terminating line break). -/
inductive PState where
  | expectKey
  | expectVal (k : String)
  | expectDirName
  | expectDirEnd (name : String)
deriving DecidableEq

/-- Modelled from the spec: the decoder's buffered state between `feed`
calls: tokenizer sub-state, parser state, the entries of the object
currently being built, and the stack of enclosing objects (each with the
key under which the in-progress child will be stored).  The nesting stack
of the spec has `stk.length + 1` entries (its bottom is the document
root). -/
structure DState where
  tok : Tok
  ps : PState
  cur : List (String × VDFNode)
  stk : List (List (String × VDFNode) × String)

/-- Result of one character step: continue in a new state, resolve a
transclusion directive (splicing the resolved fragments at the current
input position), or fail. -/
inductive StepRes where
  | next (s : DState)
  | splice (name : String) (s : DState)
  | err (e : VDFErr)

/-- Whitespace per the grammar's `WSP` (space or horizontal tab). -/
def isWSP (c : Char) : Bool := c = ' ' || c = '\t'

/-- Modelled from the spec: the recognized escape sequences
(`\\`, `\"`, `\t`, `\n`); any other escape is a malformed-input error
(the spec's strict policy). -/
def escMap (c : Char) : Option Char :=
  if c = '\\' then some '\\'
  else if c = '"' then some '"'
  else if c = 't' then some '\t'
  else if c = 'n' then some '\n'
  else none

/-- Modelled from the spec: a completed token (quoted iff `q`) is handed
to the parser.  At `ExpectKeyOrClose` the token `#base` (quoted or
unquoted) starts a transclusion directive, any other token becomes the
pending key; at `ExpectValueOrBlock` the token is bound to the pending
key as a scalar; a transclusion name must be a quoted token. -/
def emitTok (q : Bool) (text : String) (s : DState) : StepRes :=
  match s.ps with
  | .expectKey =>
      if text = "#base" then .next { s with ps := .expectDirName, tok := .ground }
      else .next { s with ps := .expectVal text, tok := .ground }
  | .expectVal k =>
      .next { s with cur := upsert s.cur k (.scalar text), ps := .expectKey, tok := .ground }
  | .expectDirName =>
      if q then .next { s with ps := .expectDirEnd text, tok := .ground }
      else .err (.fmt "transclusion name must be quoted")
  | .expectDirEnd _ => .err (.fmt "expected line break after transclusion name")

/-- Modelled from the spec: a line break in ground state.  It terminates a
transclusion directive (invoking the resolver), is an error right after
`#base` (directive missing its name), and is otherwise insignificant. -/
def applyLF (s : DState) : StepRes :=
  match s.ps with
  | .expectDirEnd name => .splice name { s with ps := .expectKey }
  | .expectDirName => .err (.fmt "transclusion directive missing name")
  | _ => .next s

/-- Modelled from the spec: an open brace enters a nested object bound to
the pending key; anywhere else it is a format error. -/
def applyOpen (s : DState) : StepRes :=
  match s.ps with
  | .expectVal k =>
      .next { s with stk := (s.cur, k) :: s.stk, cur := [], ps := .expectKey }
  | _ => .err (.fmt "unexpected open brace")

/-- Modelled from the spec: a close brace pops the nesting stack, failing
with a structural error if the stack would become empty (unmatched close
brace) or if a value is pending. -/
def applyClose (s : DState) : StepRes :=
  match s.ps with
  | .expectKey =>
      match s.stk with
      | [] => .err (.fmt "unmatched close brace")
      | (pc, k) :: rest =>
          .next { s with cur := upsert pc k (.obj s.cur), stk := rest }
  | _ => .err (.fmt "unexpected close brace")

/-- Modelled from the spec: dispatch of one character in ground
(between-token) state: whitespace is skipped, a line break is handled by
`applyLF`, braces by `applyOpen`/`applyClose`, a double quote starts a
quoted token, a slash starts a comment, a backslash starts an unquoted
token inside an escape sequence, any other character starts an unquoted
token.  After a transclusion name only whitespace and the terminating
line break are allowed. -/
def stepGround (s : DState) (c : Char) : StepRes :=
  if isWSP c then .next s
  else if c = '\n' then applyLF s
  else
    match s.ps with
    | .expectDirEnd _ => .err (.fmt "expected line break after transclusion name")
    | _ =>
      if c = '\x7b' then applyOpen s
      else if c = '\x7d' then applyClose s
      else if c = '"' then .next { s with tok := .quo "" }
      else if c = '/' then .next { s with tok := .comment }
      else if c = '\\' then .next { s with tok := .unqEsc "" }
      else .next { s with tok := .unq (String.singleton c) }

/-- Modelled from the spec: one character of the fused tokenizer/parser
state machine (`VDFDecoder.feed` is an empty stub in the source).  An
unquoted token runs until whitespace, a line break, a brace or a comment
start; a quoted token runs until an unescaped double quote; a comment
runs to the end of the line. -/
def step (s : DState) (c : Char) : StepRes :=
  match s.tok with
  | .ground => stepGround s c
  | .unq acc =>
      if isWSP c then emitTok false acc s
      else if c = '\n' then
        match emitTok false acc s with
        | .next s' => applyLF s'
        | r => r
      else if c = '\x7b' then
        match emitTok false acc s with
        | .next s' => applyOpen s'
        | r => r
      else if c = '\x7d' then
        match emitTok false acc s with
        | .next s' => applyClose s'
        | r => r
      else if c = '/' then
        match emitTok false acc s with
        | .next s' => .next { s' with tok := .comment }
        | r => r
      else if c = '"' then .err (.fmt "unexpected quote in unquoted token")
      else if c = '\\' then .next { s with tok := .unqEsc acc }
      else .next { s with tok := .unq (acc.push c) }
  | .unqEsc acc =>
      match escMap c with
      | some d => .next { s with tok := .unq (acc.push d) }
      | none => .err (.fmt "unrecognized escape sequence")
  | .quo acc =>
      if c = '"' then emitTok true acc s
      else if c = '\\' then .next { s with tok := .quoEsc acc }
      else .next { s with tok := .quo (acc.push c) }
  | .quoEsc acc =>
      match escMap c with
      | some d => .next { s with tok := .quo (acc.push d) }
      | none => .err (.fmt "unrecognized escape sequence")
  | .comment => if c = '\n' then applyLF { s with tok := .ground } else .next s

/-- Modelled from the spec: run the state machine over a list of
characters.  Each consumed character (including transcluded ones) costs
one unit of fuel, which also bounds the transclusion recursion depth; on
a transclusion directive the resolved fragments are concatenated and
spliced into the input stream exactly at the directive's position.
Returns the decoder state and the remaining fuel. -/
def goL (tr : Transcluder) : Nat → DState → List Char → Except VDFErr (DState × Nat)
  | f, s, [] => .ok (s, f)
  | 0, _, _ :: _ => .error .fuel
  | f + 1, s, c :: cs =>
      match step s c with
      | .next s' => goL tr f s' cs
      | .splice name s' =>
          match tr name with
          | .ok frags => goL tr f s' ((String.join frags).data ++ cs)
          | .error m => .error (.transclusion m)
      | .err e => .error e

/-- Modelled from the spec: the initial decoder state (`ExpectKeyOrClose`
with the stack holding only the document root). -/
def initD : DState := ⟨.ground, .expectKey, [], []⟩

/-- Modelled from the spec: `VDFDecoder.complete` (an empty stub in the
source).  Succeeds only if the parser state is `ExpectKeyOrClose`, the
nesting stack has exactly one entry (the root only, i.e. `stk = []`) and
no partially consumed token remains; it then returns the root object. -/
def completeD (s : DState) : Except VDFErr (List (String × VDFNode)) :=
  match s.tok, s.ps, s.stk with
  | .ground, .expectKey, [] => .ok s.cur
  | _, _, _ => .error (.fmt "incomplete document")

/-- Modelled from the spec: decode a full character list with the given
transcluder and fuel. -/
def decodeL (tr : Transcluder) (f : Nat) (cs : List Char) :
    Except VDFErr (List (String × VDFNode)) :=
  (goL tr f initD cs).bind fun p => completeD p.1

/-- Modelled from the spec: decode a string. -/
def decodeS (tr : Transcluder) (f : Nat) (t : String) :
    Except VDFErr (List (String × VDFNode)) :=
  decodeL tr f t.data

/-- Feed one chunk to a buffered decoder state (state plus remaining
fuel), as `VDFDecoder.feed` does per chunk. -/
def feedD (tr : Transcluder) (p : DState × Nat) (cs : List Char) :
    Except VDFErr (DState × Nat) :=
  goL tr p.2 p.1 cs

/-- Feed a list of chunks sequentially. -/
def feedAll (tr : Transcluder) : DState × Nat → List (List Char) → Except VDFErr (DState × Nat)
  | p, [] => .ok p
  | p, cs :: rest => (feedD tr p cs).bind fun p' => feedAll tr p' rest

/-- Decode by feeding a list of chunks sequentially and then completing. -/
def decodeChunkedL (tr : Transcluder) (f : Nat) (chunks : List (List Char)) :
    Except VDFErr (List (String × VDFNode)) :=
  (feedAll tr (initD, f) chunks).bind fun p => completeD p.1

/-- Split a character list into chunks of 4096, as `load`'s read loop
does (`iter(lambda: readable.read(4096), '')`). -/
def chunksAux : Nat → List Char → List (List Char)
  | 0, _ => []
  | _, [] => []
  | n + 1, cs => cs.take 4096 :: chunksAux n (cs.drop 4096)

/-- Chunking of a character list into 4096-character chunks. -/
def chunks4096 (cs : List Char) : List (List Char) := chunksAux cs.length cs

/-- `load` from the source: reads the input in chunks of 4096 characters,
feeds each chunk to the decoder, and returns the decoded object; the
transcluder defaults to the disabled transcluder.  (The feed/complete
internals are the spec-modelled state machine.) -/
def load (f : Nat) (t : String) (tr : Transcluder := VDFDisabledTranscluder) :
    Except VDFErr (List (String × VDFNode)) :=
  decodeChunkedL tr f (chunks4096 t.data)

/-- `loads` from the source: `load(io.StringIO(vdf))` — note that, as in
the source, the `tr` argument is NOT passed on to `load`, which therefore
uses its own default (the disabled transcluder). -/
def loads (f : Nat) (vdf : String) (tr : Transcluder := VDFDisabledTranscluder) :
    Except VDFErr (List (String × VDFNode)) :=
  load f vdf

/-- Modelled from the spec: escape one character for emission inside a
quoted token (`\`, `"`, tab and line feed are escaped, everything else is
emitted raw). -/
def escChar (c : Char) : List Char :=
  if c = '\\' then ['\\', '\\']
  else if c = '"' then ['\\', '"']
  else if c = '\t' then ['\\', 't']
  else if c = '\n' then ['\\', 'n']
  else [c]

/-- Modelled from the spec: escape a character list for emission inside a
quoted token. -/
def escList : List Char → List Char
  | [] => []
  | c :: cs => escChar c ++ escList cs

/-- Modelled from the spec: emit a string as a quoted token.  The spec
permits a token to be emitted unquoted only when it is free of special
characters; this encoder always quotes, which the spec allows and which
makes the encoder an exact inverse of the decoder. -/
def quoteTok (s : String) : List Char := '"' :: (escList s.data ++ ['"'])

mutual

/-- Modelled from the spec: emit one entry (`dump`/`dumps` are empty
stubs in the source).  A scalar entry is emitted as its quoted key and
quoted value separated by a space on one line; an object entry is emitted
as its quoted key, an open brace on its own line, its entries, and a
close brace on its own line.  (Indentation, being insignificant
whitespace, is omitted.) -/
def encNode : String → VDFNode → List Char
  | k, .scalar v => quoteTok k ++ (' ' :: (quoteTok v ++ ['\n']))
  | k, .obj sub =>
      quoteTok k ++ ('\n' :: ('\x7b' :: ('\n' :: (encE sub ++ ('\x7d' :: ('\n' :: []))))))

/-- Modelled from the spec: emit the entries of an object, each on its
own line, in insertion order. -/
def encE : List (String × VDFNode) → List Char
  | [] => []
  | (k, n) :: rest => encNode k n ++ encE rest

end

/-- Modelled from the spec: `dumps` — serialize a document into a VDF
string. -/
def dumps (es : List (String × VDFNode)) : String := ⟨encE es⟩

/-! ### The tree-building event consumer `VDFObjectDecoder`, embedded with
Python reference semantics: dictionaries live on a heap of addresses, the
decoder's `object` attribute is address `0`, and `_stack` holds addresses
(head of the list is the Python list's end, i.e. `_stack[-1]`). -/

/-- A value stored in a Python dict entry: a scalar string or a reference
to another dict on the heap. -/
inductive HRef where
  | str (s : String)
  | addr (n : Nat)
deriving DecidableEq

/-- State of a `VDFObjectDecoder`: the heap of dict objects (address `0`
is the decoder's `object` attribute), the `_key` slot, and the `_stack`
of addresses with the head of the list being the top (`_stack[-1]`). -/
structure PyDecSt where
  heap : List (List (Option String × HRef))
  key : Option String
  stack : List Nat
deriving DecidableEq

/-- `VDFObjectDecoder.__init__`: `object = {}`, `_key = None`,
`_stack = [object]`. -/
def pyInit : PyDecSt := ⟨[[]], none, [0]⟩

/-- `VDFObjectDecoder.on_key`: `self._key = key`. -/
def on_key (s : PyDecSt) (k : String) : PyDecSt := { s with key := some k }

/-- `VDFObjectDecoder.on_value`: `self._stack[-1][self._key] = value;
self._key = None`.  Indexing an empty stack raises `IndexError`. -/
def on_value (s : PyDecSt) (v : String) : Except String PyDecSt :=
  match s.stack with
  | [] => .error "list index out of range"
  | a :: _ =>
      .ok { s with heap := s.heap.set a (upsert (s.heap.getD a []) s.key (.str v)),
                   key := none }

/-- `VDFObjectDecoder.on_object_enter`: a fresh dict is created,
`self._stack[-1][self._key] = object_`, the new dict is pushed, and
`self._key = None`.  Indexing an empty stack raises `IndexError`. -/
def on_object_enter (s : PyDecSt) : Except String PyDecSt :=
  match s.stack with
  | [] => .error "list index out of range"
  | a :: rest =>
      .ok { heap := s.heap.set a (upsert (s.heap.getD a []) s.key (.addr s.heap.length))
                      ++ [[]],
            key := none,
            stack := s.heap.length :: a :: rest }

/-- `VDFObjectDecoder.on_object_exit`: `self._stack.pop()` — the pop is
unconditional (no guard against popping the root); popping an empty list
raises `IndexError`. -/
def on_object_exit (s : PyDecSt) : Except String PyDecSt :=
  match s.stack with
  | [] => .error "pop from empty list"
  | _ :: rest => .ok { s with stack := rest }

/-- A consumer event, as emitted by the parser. -/
inductive PyEvent where
  | enterObj
  | exitObj
  | keyEv (k : String)
  | valueEv (v : String)
deriving DecidableEq

/-- Run a sequence of consumer events against a `VDFObjectDecoder`
state. -/
def runEvents : PyDecSt → List PyEvent → Except String PyDecSt
  | s, [] => .ok s
  | s, e :: es =>
      match e with
      | .enterObj => (on_object_enter s).bind fun s' => runEvents s' es
      | .exitObj => (on_object_exit s).bind fun s' => runEvents s' es
      | .keyEv k => runEvents (on_key s k) es
      | .valueEv v => (on_value s v).bind fun s' => runEvents s' es

/-- Recognizer for `on_object_enter` events. -/
def isEnter : PyEvent → Bool
  | .enterObj => true
  | _ => false

/-- Recognizer for `on_object_exit` events. -/
def isExit : PyEvent → Bool
  | .exitObj => true
  | _ => false

/-- Event sequences in which every prefix contains at least as many
`on_object_enter` events as `on_object_exit` events. -/
def balancedPre (evs : List PyEvent) : Prop :=
  ∀ n, (evs.take n).countP isExit ≤ (evs.take n).countP isEnter

/-! ### Well-formedness of decoder-produced documents -/

/-- A node is well formed when every object below it has distinct keys
(the consumer's dict assignment never creates duplicates) and no key
equal to `#base` (at key position that token is always consumed as a
transclusion directive). -/
inductive nodeWF : VDFNode → Prop where
  | scalar (s : String) : nodeWF (.scalar s)
  | obj (es : List (String × VDFNode))
      (hnd : (es.map Prod.fst).Nodup)
      (hnb : ∀ p ∈ es, p.1 ≠ "#base")
      (hwf : ∀ p ∈ es, nodeWF p.2) : nodeWF (.obj es)

/-- Well-formedness of an entry list (the contents of one object). -/
def entsWF (es : List (String × VDFNode)) : Prop :=
  (es.map Prod.fst).Nodup ∧ (∀ p ∈ es, p.1 ≠ "#base") ∧ ∀ p ∈ es, nodeWF p.2

/-- Well-formedness of a parser state: a pending key is never `#base`. -/
def psWF : PState → Prop
  | .expectVal k => k ≠ "#base"
  | _ => True

/-- Well-formedness of a full decoder state: the object under
construction, every stacked enclosing object, and every stacked pending
key are well formed. -/
def stWF (s : DState) : Prop :=
  entsWF s.cur ∧ psWF s.ps ∧ ∀ fr ∈ s.stk, entsWF fr.1 ∧ fr.2 ≠ "#base"

/-- Well-formedness of a step result: the reached state (if any) is well
formed. -/
def resWF : StepRes → Prop
  | .next s => stWF s
  | .splice _ s => stWF s
  | .err _ => True

/-! ### Lemmas about ordered-dict assignment -/

theorem upsert_of_not_mem {α β : Type} [DecidableEq α] {es : List (α × β)} {k : α} (v : β)
    (h : k ∉ es.map Prod.fst) : upsert es k v = es ++ [(k, v)] := by
  induction es with
  | nil => rfl
  | cons p es ih =>
      obtain ⟨k', v'⟩ := p
      simp only [List.map_cons, List.mem_cons] at h
      push_neg at h
      have hne : ¬(k' = k) := fun hh => h.1 hh.symm
      simp [upsert, hne, ih h.2]

theorem upsert_keys {α β : Type} [DecidableEq α] (es : List (α × β)) (k : α) (v : β) :
    (upsert es k v).map Prod.fst =
      if k ∈ es.map Prod.fst then es.map Prod.fst else es.map Prod.fst ++ [k] := by
  induction es with
  | nil => simp [upsert]
  | cons p es ih =>
      obtain ⟨k', v'⟩ := p
      by_cases hk : k' = k
      · subst hk
        simp [upsert]
      · have hk' : ¬(k = k') := fun hh => hk hh.symm
        by_cases hm : k ∈ es.map Prod.fst <;>
          simp [upsert, hk, hk', hm, ih]

theorem upsert_upsert {α β : Type} [DecidableEq α] (es : List (α × β)) (k : α) (v₁ v₂ : β) :
    upsert (upsert es k v₁) k v₂ = upsert es k v₂ := by
  induction es with
  | nil => simp [upsert]
  | cons p es ih =>
      obtain ⟨k', v'⟩ := p
      by_cases hk : k' = k
      · subst hk; simp [upsert]
      · simp [upsert, hk, ih]

theorem lookup_upsert_self {α β : Type} [DecidableEq α] [BEq α] [LawfulBEq α]
    (es : List (α × β)) (k : α) (v : β) : List.lookup k (upsert es k v) = some v := by
  induction es with
  | nil => simp [upsert, List.lookup]
  | cons p es ih =>
      obtain ⟨k', v'⟩ := p
      by_cases hk : k' = k
      · subst hk; simp [upsert, List.lookup]
      · have : ¬(k == k') := by simp [beq_iff_eq]; exact fun hh => hk hh.symm
        simp [upsert, hk, List.lookup, this, ih]

theorem lookup_upsert_ne {α β : Type} [DecidableEq α] [BEq α] [LawfulBEq α]
    (es : List (α × β)) (k k' : α) (v : β) (h : k' ≠ k) :
    List.lookup k' (upsert es k v) = List.lookup k' es := by
  have hb : (k' == k) = false := by
    simpa [beq_eq_false_iff_ne] using h
  induction es with
  | nil => simp [upsert, List.lookup, hb]
  | cons p es ih =>
      obtain ⟨k'', v''⟩ := p
      by_cases hk : k'' = k
      · subst hk
        simp [upsert, List.lookup, hb]
      · simp only [upsert, if_neg hk, List.lookup]
        by_cases hh : k' == k'' <;> simp [hh, ih]

theorem mem_upsert {α β : Type} [DecidableEq α] (es : List (α × β)) (k : α) (v : β) :
    ∀ p ∈ upsert es k v, p ∈ es ∨ p = (k, v) := by
  induction es with
  | nil =>
      intro p hp
      simp only [upsert, List.mem_singleton] at hp
      exact Or.inr hp
  | cons q es ih =>
      obtain ⟨k', v'⟩ := q
      intro p hp
      by_cases hk : k' = k
      · have he : upsert ((k', v') :: es) k v = (k, v) :: es := by simp [upsert, hk]
        rw [he] at hp
        rcases List.mem_cons.mp hp with hp | hp
        · exact Or.inr hp
        · exact Or.inl (List.mem_cons_of_mem _ hp)
      · have he : upsert ((k', v') :: es) k v = (k', v') :: upsert es k v := by
          simp [upsert, hk]
        rw [he] at hp
        rcases List.mem_cons.mp hp with hp | hp
        · exact Or.inl (by simp [hp])
        · rcases ih p hp with h' | h'
          · exact Or.inl (List.mem_cons_of_mem _ h')
          · exact Or.inr h'

/-! ### Basic lemmas about the character-level run -/

theorem goL_nil (tr : Transcluder) (f : Nat) (s : DState) : goL tr f s [] = .ok (s, f) := by
  cases f <;> rfl

theorem goL_zero (tr : Transcluder) (s : DState) (c : Char) (cs : List Char) :
    goL tr 0 s (c :: cs) = .error .fuel := rfl

theorem goL_succ (tr : Transcluder) (f : Nat) (s : DState) (c : Char) (cs : List Char) :
    goL tr (f + 1) s (c :: cs) =
      (match step s c with
       | .next s' => goL tr f s' cs
       | .splice name s' =>
           (match tr name with
            | .ok frags => goL tr f s' ((String.join frags).data ++ cs)
            | .error m => .error (.transclusion m))
       | .err e => .error e) := rfl

theorem goL_next {s : DState} {c : Char} {s' : DState} (tr : Transcluder) (f : Nat)
    (cs : List Char) (h : step s c = .next s') :
    goL tr (f + 1) s (c :: cs) = goL tr f s' cs := by
  simp only [goL_succ, h]

theorem goL_splice_ok {s : DState} {c : Char} {n : String} {s' : DState} {frags : List String}
    (tr : Transcluder) (f : Nat) (cs : List Char) (h : step s c = .splice n s')
    (htr : tr n = .ok frags) :
    goL tr (f + 1) s (c :: cs) = goL tr f s' ((String.join frags).data ++ cs) := by
  simp only [goL_succ, h, htr]

theorem goL_splice_err {s : DState} {c : Char} {n : String} {s' : DState} {m : String}
    (tr : Transcluder) (f : Nat) (cs : List Char) (h : step s c = .splice n s')
    (htr : tr n = .error m) :
    goL tr (f + 1) s (c :: cs) = .error (.transclusion m) := by
  simp only [goL_succ, h, htr]

theorem goL_err {s : DState} {c : Char} {e : VDFErr} (tr : Transcluder) (f : Nat)
    (cs : List Char) (h : step s c = .err e) :
    goL tr (f + 1) s (c :: cs) = .error e := by
  simp only [goL_succ, h]

/-- Compositionality of the incremental run: processing `a ++ b` is
processing `a` and then feeding `b` to the resulting buffered state. -/
theorem goL_append (tr : Transcluder) :
    ∀ (f : Nat) (s : DState) (a b : List Char),
      goL tr f s (a ++ b) = (goL tr f s a).bind fun p => goL tr p.2 p.1 b := by
  intro f
  induction f with
  | zero =>
      intro s a b
      cases a with
      | nil => rfl
      | cons c cs => rfl
  | succ f ih =>
      intro s a b
      cases a with
      | nil => rfl
      | cons c cs =>
          show goL tr (f + 1) s (c :: (cs ++ b)) = (goL tr (f + 1) s (c :: cs)).bind _
          cases hs : step s c with
          | next s' =>
              rw [goL_next tr f (cs ++ b) hs, goL_next tr f cs hs]
              exact ih s' cs b
          | splice n s' =>
              cases htr : tr n with
              | ok frags =>
                  rw [goL_splice_ok tr f (cs ++ b) hs htr, goL_splice_ok tr f cs hs htr,
                    ← List.append_assoc]
                  exact ih s' _ b
              | error m =>
                  rw [goL_splice_err tr f (cs ++ b) hs htr, goL_splice_err tr f cs hs htr]
                  rfl
          | err e =>
              rw [goL_err tr f (cs ++ b) hs, goL_err tr f cs hs]
              rfl

theorem feedAll_flatten (tr : Transcluder) :
    ∀ (chunks : List (List Char)) (p : DState × Nat),
      feedAll tr p chunks = goL tr p.2 p.1 chunks.flatten := by
  intro chunks
  induction chunks with
  | nil =>
      intro p
      show Except.ok p = goL tr p.2 p.1 []
      rw [goL_nil]
  | cons c cs ih =>
      intro p
      show (goL tr p.2 p.1 c).bind _ = goL tr p.2 p.1 (c ++ cs.flatten)
      rw [goL_append]
      cases goL tr p.2 p.1 c with
      | error e => rfl
      | ok p' => exact ih p'

theorem chunksAux_flatten : ∀ (n : Nat) (cs : List Char), cs.length ≤ n →
    (chunksAux n cs).flatten = cs := by
  intro n
  induction n with
  | zero =>
      intro cs h
      have : cs = [] := List.length_eq_zero.mp (Nat.le_zero.mp h)
      subst this
      rfl
  | succ n ih =>
      intro cs h
      cases cs with
      | nil => rfl
      | cons c cs' =>
          show ((c :: cs').take 4096 :: chunksAux n ((c :: cs').drop 4096)).flatten = c :: cs'
          have hlen : ((c :: cs').drop 4096).length ≤ n := by
            simp only [List.length_drop, List.length_cons]
            simp only [List.length_cons] at h
            omega
          rw [List.flatten_cons, ih _ hlen, List.take_append_drop]

/-- C3 -- Chunk-boundary independence: feeding any list of chunks
sequentially to the incremental decoder and completing yields exactly the
result of decoding the concatenated text in one piece; in particular
`load`'s 4096-character chunked reading agrees with whole-string
decoding. -/
theorem c3_chunk_independence (tr : Transcluder) (f : Nat) :
    (∀ chunks : List (List Char), decodeChunkedL tr f chunks = decodeL tr f chunks.flatten) ∧
    (∀ t : String, load f t tr = decodeS tr f t) := by
  constructor
  · intro chunks
    unfold decodeChunkedL decodeL
    rw [feedAll_flatten]
  · intro t
    show decodeChunkedL tr f (chunks4096 t.data) = decodeL tr f t.data
    unfold decodeChunkedL decodeL
    rw [feedAll_flatten]
    unfold chunks4096
    rw [chunksAux_flatten t.data.length t.data (Nat.le_refl _)]

/-! ### Concrete decoding facts and the transcluder claims -/

/-- C2 -- `loads` does not pass its `transcluder` argument on to `load`
(the source calls `load(io.StringIO(vdf))`), so decoding through `loads`
with a registry transcluder still fails with the disabled transcluder's
transclusion error; calling `load` with the same registry transcluder
resolves the `#base "inc"` directive and splices the registered fragment
at the directive's position, yielding `{x: "1", y: "2"}`. -/
theorem c2_loads_drops_transcluder :
    loads 100 "#base \"inc\"\n\"y\" \"2\"\n" (VDFTestTranscluder [("inc", "\"x\" \"1\"\n")]) =
      .error (.transclusion "Transclusion disabled") ∧
    load 100 "#base \"inc\"\n\"y\" \"2\"\n" (VDFTestTranscluder [("inc", "\"x\" \"1\"\n")]) =
      .ok [("x", .scalar "1"), ("y", .scalar "2")] :=
  ⟨rfl, rfl⟩

/-- C4 -- Decoding the unbalanced input `"root" { "a" "1"` fails with a
format error at completion, and `complete()` succeeds exactly when the
parser state is `ExpectKeyOrClose`, the nesting stack has exactly one
entry (the root only), and no partially consumed token remains. -/
theorem c4_unbalanced_input :
    decodeS VDFDisabledTranscluder 100 "\"root\" \x7b \"a\" \"1\"" =
      .error (.fmt "incomplete document") ∧
    ∀ s : DState, (∃ es, completeD s = .ok es) ↔
      (s.tok = .ground ∧ s.ps = .expectKey ∧ s.stk = []) := by
  refine ⟨rfl, ?_⟩
  intro s
  obtain ⟨tok, ps, cur, stk⟩ := s
  constructor
  · intro h
    obtain ⟨es, hes⟩ := h
    cases tok <;> cases ps <;> cases stk <;>
      first
        | exact ⟨rfl, rfl, rfl⟩
        | simp [completeD] at hes
  · rintro ⟨h1, h2, h3⟩
    cases h1
    cases h2
    cases h3
    exact ⟨cur, rfl⟩

/-- C6 -- Decoding `"a" "1" "a" "2"` yields `{a: "2"}`; in general the
consumer's dict assignment is last-write-wins (a second write to the same
key replaces the first) and preserves the key's original position in
insertion order (the key list is unchanged when the key is already
present, and the key is appended when it is new). -/
theorem c6_duplicate_keys :
    decodeS VDFDisabledTranscluder 100 "\"a\" \"1\" \"a\" \"2\"" = .ok [("a", .scalar "2")] ∧
    (∀ (es : List (String × VDFNode)) (k : String) (v₁ v₂ : VDFNode),
        upsert (upsert es k v₁) k v₂ = upsert es k v₂) ∧
    (∀ (es : List (String × VDFNode)) (k : String) (v : VDFNode),
        (upsert es k v).map Prod.fst =
          if k ∈ es.map Prod.fst then es.map Prod.fst else es.map Prod.fst ++ [k]) :=
  ⟨rfl, fun es k v₁ v₂ => upsert_upsert es k v₁ v₂, fun es k v => upsert_keys es k v⟩

/-- C7 -- The registry-backed test transcluder: `transclude` returns the
document registered under exactly the requested name and fails with a
"not found" transclusion error otherwise; `register` fails when the name
is already present and otherwise appends the pair; `unregister` fails
when the name is absent and otherwise removes it.  In the failing cases
no new registry is produced (the error carries no state, so the caller's
registry is untouched). -/
theorem c7_test_transcluder (reg : List (String × String)) (name doc : String) :
    (∀ d, List.lookup name reg = some d → VDFTestTranscluder reg name = .ok [d]) ∧
    (List.lookup name reg = none →
      VDFTestTranscluder reg name = .error ("No document with name '" ++ name ++ "'")) ∧
    (List.lookup name reg = none →
      VDFTestTranscluder.register reg name doc = .ok (reg ++ [(name, doc)])) ∧
    ((List.lookup name reg).isSome →
      VDFTestTranscluder.register reg name doc =
        .error ("Document with name '" ++ name ++ "' already registered")) ∧
    ((List.lookup name reg).isSome →
      VDFTestTranscluder.unregister reg name = .ok (reg.filter (fun p => p.1 ≠ name))) ∧
    (List.lookup name reg = none →
      VDFTestTranscluder.unregister reg name = .error ("No document with name '" ++ name ++ "'")) := by
  refine ⟨?_, ?_, ?_, ?_, ?_, ?_⟩
  · intro d h
    simp [VDFTestTranscluder, h]
  · intro h
    simp [VDFTestTranscluder, h]
  · intro h
    simp [VDFTestTranscluder.register, h]
  · intro h
    simp [VDFTestTranscluder.register, h]
  · intro h
    simp [VDFTestTranscluder.unregister, h]
  · intro h
    simp [VDFTestTranscluder.unregister, h]

/-- Witness for C7 at a concrete registry. -/
theorem c7_test_transcluder_witness :
    VDFTestTranscluder [("inc", "A")] "inc" = .ok ["A"] ∧
    VDFTestTranscluder [("inc", "A")] "zzz" = .error ("No document with name '" ++ "zzz" ++ "'") ∧
    VDFTestTranscluder.register [("inc", "A")] "new" "B" = .ok ([("inc", "A")] ++ [("new", "B")]) ∧
    VDFTestTranscluder.register [("inc", "A")] "inc" "B" =
      .error ("Document with name '" ++ "inc" ++ "' already registered") ∧
    VDFTestTranscluder.unregister [("inc", "A")] "inc" =
      .ok (([("inc", "A")] : List (String × String)).filter (fun p => p.1 ≠ "inc")) ∧
    VDFTestTranscluder.unregister [("inc", "A")] "zzz" =
      .error ("No document with name '" ++ "zzz" ++ "'") :=
  ⟨(c7_test_transcluder [("inc", "A")] "inc" "B").1 "A" rfl,
   (c7_test_transcluder [("inc", "A")] "zzz" "B").2.1 rfl,
   (c7_test_transcluder [("inc", "A")] "new" "B").2.2.1 rfl,
   (c7_test_transcluder [("inc", "A")] "inc" "B").2.2.2.1 rfl,
   (c7_test_transcluder [("inc", "A")] "inc" "B").2.2.2.2.1 rfl,
   (c7_test_transcluder [("inc", "A")] "zzz" "B").2.2.2.2.2 rfl⟩

/-- Processing a complete `#base "inc"` directive with the disabled
transcluder fails with the transclusion error at the directive's
terminating line break, whatever follows and whatever the current object
and stack are. -/
theorem goL_disabled_dir (cur : List (String × VDFNode))
    (stk : List (List (String × VDFNode) × String)) (f : Nat) (rest : List Char) :
    goL VDFDisabledTranscluder (f + 12) ⟨.ground, .expectKey, cur, stk⟩
        (("#base \"inc\"\n").data ++ rest) =
      .error (.transclusion "Transclusion disabled") := rfl

/-- C5 counterexample -- the claim quantifies over every document
containing `#base "inc"`: the input `}\n#base "inc"\n` contains the
directive, yet decoding it with the default (disabled) transcluder fails
with a format error (the unmatched close brace is hit before the
directive), not a transclusion error. -/
theorem c5_counterexample :
    decodeS VDFDisabledTranscluder 100 "\x7d\n#base \"inc\"\n" =
      .error (.fmt "unmatched close brace") := rfl

/-- C5 (amended) -- `VDFDisabledTranscluder.transclude` fails with the
transclusion error for every name; it is the default transcluder of both
`load` and `loads`; and decoding fails with a transclusion error (never a
format error) whenever the `#base "inc"` directive is reached, i.e.
whenever the text before the directive decodes without error to a
key-expecting state with no partial token. -/
theorem c5_disabled_transcluder :
    (∀ name, VDFDisabledTranscluder name = .error "Transclusion disabled") ∧
    (∀ (fu : Nat) (t : String),
        load fu t = load fu t VDFDisabledTranscluder ∧
        loads fu t = loads fu t VDFDisabledTranscluder) ∧
    (∀ (t1 t2 : List Char) (f f1 : Nat) (cur : List (String × VDFNode))
        (stk : List (List (String × VDFNode) × String)),
        goL VDFDisabledTranscluder f initD t1 = .ok (⟨.ground, .expectKey, cur, stk⟩, f1) →
        12 ≤ f1 →
        decodeL VDFDisabledTranscluder f (t1 ++ (("#base \"inc\"\n").data ++ t2)) =
          .error (.transclusion "Transclusion disabled")) := by
  refine ⟨fun _ => rfl, fun _ _ => ⟨rfl, rfl⟩, ?_⟩
  intro t1 t2 f f1 cur stk hgo hf1
  unfold decodeL
  rw [goL_append, hgo]
  show (goL VDFDisabledTranscluder f1 ⟨.ground, .expectKey, cur, stk⟩
      (("#base \"inc\"\n").data ++ t2)).bind _ = _
  rw [show f1 = (f1 - 12) + 12 by omega, goL_disabled_dir]
  rfl

/-- Witness for C5 at a concrete well-formed prefix and suffix. -/
theorem c5_disabled_transcluder_witness :
    decodeL VDFDisabledTranscluder 50
        (("\"a\" \"1\" ").data ++ (("#base \"inc\"\n").data ++ ("\"z\" \"9\"\n").data)) =
      .error (.transclusion "Transclusion disabled") ∧
    VDFDisabledTranscluder "anything" = .error "Transclusion disabled" :=
  ⟨(c5_disabled_transcluder).2.2 ("\"a\" \"1\" ").data ("\"z\" \"9\"\n").data 50 42
      [("a", .scalar "1")] [] rfl (by omega),
   (c5_disabled_transcluder).1 "anything"⟩

/-- Resolving any directive with the ignoring transcluder splices the
empty fragment: at the directive's terminating line break the decoder
continues in exactly the state it was in before the directive, for every
directive name. -/
theorem goL_ignore_splice (name : String) (cur : List (String × VDFNode))
    (stk : List (List (String × VDFNode) × String)) (f : Nat) (rest : List Char) :
    goL VDFIgnoreTranscluder (f + 1) ⟨.ground, .expectDirEnd name, cur, stk⟩ ('\n' :: rest) =
      goL VDFIgnoreTranscluder f ⟨.ground, .expectKey, cur, stk⟩ rest := rfl

/-- C8 -- `VDFIgnoreTranscluder.transclude` succeeds with exactly the
empty fragment for every name; consequently resolving a directive is a
no-op: at the terminating line break the decoder continues in the state
it was in before the directive (for every name), and a complete
`#base "inc"` directive consumes its own characters and otherwise leaves
the decode unchanged, so the decoded document equals the document decoded
with the directive removed. -/
theorem c8_ignore_transcluder :
    (∀ name, VDFIgnoreTranscluder name = .ok [""]) ∧
    (∀ (name : String) (cur : List (String × VDFNode))
        (stk : List (List (String × VDFNode) × String)) (f : Nat) (rest : List Char),
        goL VDFIgnoreTranscluder (f + 1) ⟨.ground, .expectDirEnd name, cur, stk⟩ ('\n' :: rest) =
          goL VDFIgnoreTranscluder f ⟨.ground, .expectKey, cur, stk⟩ rest) ∧
    (∀ (cur : List (String × VDFNode)) (stk : List (List (String × VDFNode) × String))
        (f : Nat) (rest : List Char),
        goL VDFIgnoreTranscluder (f + 12) ⟨.ground, .expectKey, cur, stk⟩
            (("#base \"inc\"\n").data ++ rest) =
          goL VDFIgnoreTranscluder f ⟨.ground, .expectKey, cur, stk⟩ rest) :=
  ⟨fun _ => rfl, fun name cur stk f rest => goL_ignore_splice name cur stk f rest,
   fun _ _ _ _ => rfl⟩

/-! ### The tree-building consumer: pending key and stack discipline -/

theorem getD_set_self {γ : Type} :
    ∀ (l : List γ) (i : Nat) (x d : γ), i < l.length → (l.set i x).getD i d = x := by
  intro l
  induction l with
  | nil => intro i x d h; simp at h
  | cons a l ih =>
      intro i x d h
      cases i with
      | zero => rfl
      | succ i =>
          show (a :: l.set i x).getD (i + 1) d = x
          rw [List.getD_cons_succ]
          exact ih i x d (by simpa using h)

theorem getD_append_left {γ : Type} :
    ∀ (l l' : List γ) (i : Nat) (d : γ), i < l.length → (l ++ l').getD i d = l.getD i d := by
  intro l
  induction l with
  | nil => intro l' i d h; simp at h
  | cons a l ih =>
      intro l' i d h
      cases i with
      | zero => rfl
      | succ i =>
          show (a :: (l ++ l')).getD (i + 1) d = (a :: l).getD (i + 1) d
          rw [List.getD_cons_succ, List.getD_cons_succ]
          exact ih l' i d (by simpa using h)

theorem getD_append_len {γ : Type} :
    ∀ (l : List γ) (x d : γ), (l ++ [x]).getD l.length d = x := by
  intro l
  induction l with
  | nil => intro x d; rfl
  | cons a l ih =>
      intro x d
      show (a :: (l ++ [x])).getD (l.length + 1) d = x
      rw [List.getD_cons_succ]
      exact ih x d

/-- C9 -- `on_key` sets the pending-key slot; `on_value` and
`on_object_enter` bind the pending key in the current top-of-stack object
(to the scalar, respectively to the freshly pushed empty object) and then
clear the pending-key slot to empty, so the slot is non-empty only
between a parsed key and its corresponding value or object. -/
theorem c9_pending_key (s : PyDecSt) (k v : String) (a : Nat) (rest : List Nat) :
    ((on_key s k).key = some k ∧ (on_key s k).heap = s.heap ∧ (on_key s k).stack = s.stack) ∧
    (s.stack = a :: rest → a < s.heap.length →
      ∃ s', on_value s v = .ok s' ∧ s'.key = none ∧ s'.stack = s.stack ∧
        List.lookup s.key (s'.heap.getD a []) = some (.str v) ∧
        ∀ k', k' ≠ s.key →
          List.lookup k' (s'.heap.getD a []) = List.lookup k' (s.heap.getD a [])) ∧
    (s.stack = a :: rest → a < s.heap.length →
      ∃ s', on_object_enter s = .ok s' ∧ s'.key = none ∧
        s'.stack = s.heap.length :: a :: rest ∧
        List.lookup s.key (s'.heap.getD a []) = some (.addr s.heap.length) ∧
        s'.heap.getD s.heap.length [] = []) := by
  refine ⟨⟨rfl, rfl, rfl⟩, ?_, ?_⟩
  · intro h hlen
    refine ⟨⟨s.heap.set a (upsert (s.heap.getD a []) s.key (.str v)), none, s.stack⟩,
      ?_, rfl, rfl, ?_, ?_⟩
    · simp only [on_value, h]
    · show List.lookup s.key
          ((s.heap.set a (upsert (s.heap.getD a []) s.key (.str v))).getD a []) = _
      rw [getD_set_self _ _ _ _ hlen, lookup_upsert_self]
    · intro k' hk'
      show List.lookup k'
          ((s.heap.set a (upsert (s.heap.getD a []) s.key (.str v))).getD a []) = _
      rw [getD_set_self _ _ _ _ hlen, lookup_upsert_ne _ _ _ _ hk']
  · intro h hlen
    refine ⟨⟨s.heap.set a (upsert (s.heap.getD a []) s.key (.addr s.heap.length)) ++ [[]],
      none, s.heap.length :: a :: rest⟩, ?_, rfl, rfl, ?_, ?_⟩
    · simp only [on_object_enter, h]
    · show List.lookup s.key
          (((s.heap.set a (upsert (s.heap.getD a []) s.key (.addr s.heap.length)))
            ++ [[]]).getD a []) = _
      rw [getD_append_left _ _ _ _ (by simpa using hlen),
        getD_set_self _ _ _ _ hlen, lookup_upsert_self]
    · show (((s.heap.set a (upsert (s.heap.getD a []) s.key (.addr s.heap.length)))
          ++ [[]]).getD s.heap.length []) = []
      have hl : (s.heap.set a
          (upsert (s.heap.getD a []) s.key (.addr s.heap.length))).length = s.heap.length :=
        List.length_set _ _ _
      have h2 := getD_append_len
        (s.heap.set a (upsert (s.heap.getD a []) s.key (.addr s.heap.length)))
        ([] : List (Option String × HRef)) []
      rw [hl] at h2
      exact h2

/-- Witness for C9: from the initial consumer state after `on_key`. -/
theorem c9_pending_key_witness :
    (on_key pyInit "k").key = some "k" ∧
    (∃ s', on_value (on_key pyInit "k") "v" = .ok s' ∧ s'.key = none ∧
      s'.stack = (on_key pyInit "k").stack ∧
      List.lookup (on_key pyInit "k").key (s'.heap.getD 0 []) = some (.str "v") ∧
      ∀ k', k' ≠ (on_key pyInit "k").key →
        List.lookup k' (s'.heap.getD 0 []) =
          List.lookup k' ((on_key pyInit "k").heap.getD 0 [])) ∧
    (∃ s', on_object_enter (on_key pyInit "k") = .ok s' ∧ s'.key = none ∧
      s'.stack = (on_key pyInit "k").heap.length :: 0 :: [] ∧
      List.lookup (on_key pyInit "k").key (s'.heap.getD 0 []) =
        some (.addr (on_key pyInit "k").heap.length) ∧
      s'.heap.getD (on_key pyInit "k").heap.length [] = []) :=
  ⟨(c9_pending_key pyInit "k" "v" 0 []).1.1,
   (c9_pending_key (on_key pyInit "k") "k" "v" 0 []).2.1 rfl (by decide),
   (c9_pending_key (on_key pyInit "k") "k" "v" 0 []).2.2 rfl (by decide)⟩

/-- If every prefix of the remaining events keeps the exit count strictly
below the enter count plus the current stack depth, the run succeeds and
the stack stays non-empty with the root address `0` at its bottom. -/
theorem runEvents_inv : ∀ (evs : List PyEvent) (s : PyDecSt),
    s.stack ≠ [] → s.stack.getLast? = some 0 →
    (∀ n, (evs.take n).countP isExit + 1 ≤ (evs.take n).countP isEnter + s.stack.length) →
    ∃ s', runEvents s evs = .ok s' ∧ s'.stack ≠ [] ∧ s'.stack.getLast? = some 0 := by
  intro evs
  induction evs with
  | nil => intro s h1 h2 _; exact ⟨s, rfl, h1, h2⟩
  | cons e es ih =>
      intro s h1 h2 hc
      obtain ⟨a, t, hst⟩ : ∃ a t, s.stack = a :: t := by
        cases hs : s.stack with
        | nil => exact absurd hs h1
        | cons a t => exact ⟨a, t, rfl⟩
      cases e with
      | keyEv k =>
          obtain ⟨s', hs', h1', h2'⟩ := ih (on_key s k) h1 h2 (fun n => by
            have := hc (n + 1)
            simpa [List.countP_cons, isExit, isEnter] using this)
          exact ⟨s', hs', h1', h2'⟩
      | valueEv v =>
          have hval : on_value s v =
              .ok ⟨s.heap.set a (upsert (s.heap.getD a []) s.key (.str v)), none, s.stack⟩ := by
            simp only [on_value, hst]
          obtain ⟨s', hs', h1', h2'⟩ := ih
            ⟨s.heap.set a (upsert (s.heap.getD a []) s.key (.str v)), none, s.stack⟩
            h1 h2 (fun n => by
              have := hc (n + 1)
              simpa [List.countP_cons, isExit, isEnter] using this)
          refine ⟨s', ?_, h1', h2'⟩
          show (on_value s v).bind _ = .ok s'
          rw [hval]
          exact hs'
      | enterObj =>
          have hent : on_object_enter s =
              .ok ⟨s.heap.set a (upsert (s.heap.getD a []) s.key (.addr s.heap.length)) ++ [[]],
                none, s.heap.length :: a :: t⟩ := by
            simp only [on_object_enter, hst]
          have h1n : (s.heap.length :: a :: t : List Nat) ≠ [] := by simp
          have h2n : (s.heap.length :: a :: t).getLast? = some 0 := by
            rw [List.getLast?_cons_cons]
            rw [← hst]
            exact h2
          obtain ⟨s', hs', h1', h2'⟩ := ih
            ⟨s.heap.set a (upsert (s.heap.getD a []) s.key (.addr s.heap.length)) ++ [[]],
              none, s.heap.length :: a :: t⟩ h1n h2n (fun n => by
                have h3 := hc (n + 1)
                rw [hst] at h3
                simp [List.take_succ_cons, List.countP_cons, isExit, isEnter,
                  List.length_cons] at h3 ⊢
                omega)
          refine ⟨s', ?_, h1', h2'⟩
          show (on_object_enter s).bind _ = .ok s'
          rw [hent]
          exact hs'
      | exitObj =>
          have hex : on_object_exit s = .ok { s with stack := t } := by
            simp only [on_object_exit, hst]
          have hlen2 : 2 ≤ s.stack.length := by
            have h3 := hc 1
            simp [List.countP_cons, isExit, isEnter] at h3
            omega
          have ht : t ≠ [] := by
            intro hteq
            rw [hst, hteq] at hlen2
            simp at hlen2
          have h2t : t.getLast? = some 0 := by
            cases t with
            | nil => exact absurd rfl ht
            | cons b t' =>
                rw [hst, List.getLast?_cons_cons] at h2
                exact h2
          obtain ⟨s', hs', h1', h2'⟩ := ih { s with stack := t } ht h2t (fun n => by
            have h3 := hc (n + 1)
            rw [hst] at h3
            simp [List.take_succ_cons, List.countP_cons, isExit, isEnter,
              List.length_cons] at h3 ⊢
            omega)
          refine ⟨s', ?_, h1', h2'⟩
          show (on_object_exit s).bind _ = .ok s'
          rw [hex]
          exact hs'

/-- C10 -- `on_object_exit` pops unconditionally: for every event
sequence whose prefixes contain at least as many enters as exits, the run
from the initial state succeeds with the stack non-empty and the root
address `0` at its bottom; but exiting from the initial state pops the
root itself (leaving an empty stack and the `object` heap untouched), and
a subsequent `on_value` or `on_object_enter` fails with an index error
instead of updating `object`. -/
theorem c10_pop_unconditional :
    (∀ evs, balancedPre evs →
      ∃ s', runEvents pyInit evs = .ok s' ∧ s'.stack ≠ [] ∧ s'.stack.getLast? = some 0) ∧
    on_object_exit pyInit = .ok { pyInit with stack := [] } ∧
    on_value { pyInit with stack := [] } "v" = .error "list index out of range" ∧
    on_object_enter { pyInit with stack := [] } = .error "list index out of range" := by
  refine ⟨?_, rfl, rfl, rfl⟩
  intro evs hb
  refine runEvents_inv evs pyInit (by simp [pyInit]) rfl (fun n => ?_)
  have := hb n
  show _ + 1 ≤ _ + (1 : Nat)
  omega

/-- Witness for C10 at a concrete balanced event sequence. -/
theorem c10_pop_unconditional_witness :
    balancedPre [PyEvent.enterObj, PyEvent.exitObj] ∧
    (∃ s', runEvents pyInit [PyEvent.enterObj, PyEvent.exitObj] = .ok s' ∧
      s'.stack ≠ [] ∧ s'.stack.getLast? = some 0) := by
  have hb : balancedPre [PyEvent.enterObj, PyEvent.exitObj] := by
    intro n
    match n with
    | 0 => decide
    | 1 => decide
    | n + 2 =>
        rw [List.take_of_length_le (by simp)]
        decide
  exact ⟨hb, c10_pop_unconditional.1 [PyEvent.enterObj, PyEvent.exitObj] hb⟩

/-! ### Characterization of single steps on encoder-produced characters -/

theorem step_quo_bslash (acc : String) (ps : PState) (cur : List (String × VDFNode))
    (stk : List (List (String × VDFNode) × String)) :
    step ⟨.quo acc, ps, cur, stk⟩ '\\' = .next ⟨.quoEsc acc, ps, cur, stk⟩ := rfl

theorem step_quoEsc_bslash (acc : String) (ps : PState) (cur : List (String × VDFNode))
    (stk : List (List (String × VDFNode) × String)) :
    step ⟨.quoEsc acc, ps, cur, stk⟩ '\\' = .next ⟨.quo (acc.push '\\'), ps, cur, stk⟩ := rfl

theorem step_quoEsc_quote (acc : String) (ps : PState) (cur : List (String × VDFNode))
    (stk : List (List (String × VDFNode) × String)) :
    step ⟨.quoEsc acc, ps, cur, stk⟩ '"' = .next ⟨.quo (acc.push '"'), ps, cur, stk⟩ := rfl

theorem step_quoEsc_tab (acc : String) (ps : PState) (cur : List (String × VDFNode))
    (stk : List (List (String × VDFNode) × String)) :
    step ⟨.quoEsc acc, ps, cur, stk⟩ 't' = .next ⟨.quo (acc.push '\t'), ps, cur, stk⟩ := rfl

theorem step_quoEsc_nl (acc : String) (ps : PState) (cur : List (String × VDFNode))
    (stk : List (List (String × VDFNode) × String)) :
    step ⟨.quoEsc acc, ps, cur, stk⟩ 'n' = .next ⟨.quo (acc.push '\n'), ps, cur, stk⟩ := rfl

theorem step_quo_push {c : Char} (h1 : c ≠ '"') (h2 : c ≠ '\\') (acc : String) (ps : PState)
    (cur : List (String × VDFNode)) (stk : List (List (String × VDFNode) × String)) :
    step ⟨.quo acc, ps, cur, stk⟩ c = .next ⟨.quo (acc.push c), ps, cur, stk⟩ := by
  simp [step, h1, h2]

theorem step_ground_quote_key (cur : List (String × VDFNode))
    (stk : List (List (String × VDFNode) × String)) :
    step ⟨.ground, .expectKey, cur, stk⟩ '"' = .next ⟨.quo "", .expectKey, cur, stk⟩ := rfl

theorem step_ground_quote_val (k : String) (cur : List (String × VDFNode))
    (stk : List (List (String × VDFNode) × String)) :
    step ⟨.ground, .expectVal k, cur, stk⟩ '"' = .next ⟨.quo "", .expectVal k, cur, stk⟩ := rfl

theorem step_quo_close_key {str : String} (h : str ≠ "#base") (cur : List (String × VDFNode))
    (stk : List (List (String × VDFNode) × String)) :
    step ⟨.quo str, .expectKey, cur, stk⟩ '"' = .next ⟨.ground, .expectVal str, cur, stk⟩ := by
  simp [step, emitTok, h]

theorem step_quo_close_val (str k : String) (cur : List (String × VDFNode))
    (stk : List (List (String × VDFNode) × String)) :
    step ⟨.quo str, .expectVal k, cur, stk⟩ '"' =
      .next ⟨.ground, .expectKey, upsert cur k (.scalar str), stk⟩ := rfl

theorem step_ground_space_val (k : String) (cur : List (String × VDFNode))
    (stk : List (List (String × VDFNode) × String)) :
    step ⟨.ground, .expectVal k, cur, stk⟩ ' ' = .next ⟨.ground, .expectVal k, cur, stk⟩ := rfl

theorem step_ground_lf_key (cur : List (String × VDFNode))
    (stk : List (List (String × VDFNode) × String)) :
    step ⟨.ground, .expectKey, cur, stk⟩ '\n' = .next ⟨.ground, .expectKey, cur, stk⟩ := rfl

theorem step_ground_lf_val (k : String) (cur : List (String × VDFNode))
    (stk : List (List (String × VDFNode) × String)) :
    step ⟨.ground, .expectVal k, cur, stk⟩ '\n' = .next ⟨.ground, .expectVal k, cur, stk⟩ := rfl

theorem step_ground_open_val (k : String) (cur : List (String × VDFNode))
    (stk : List (List (String × VDFNode) × String)) :
    step ⟨.ground, .expectVal k, cur, stk⟩ '\x7b' =
      .next ⟨.ground, .expectKey, [], (cur, k) :: stk⟩ := rfl

theorem step_ground_close_key (cur pc : List (String × VDFNode)) (k : String)
    (stk : List (List (String × VDFNode) × String)) :
    step ⟨.ground, .expectKey, cur, (pc, k) :: stk⟩ '\x7d' =
      .next ⟨.ground, .expectKey, upsert pc k (.obj cur), stk⟩ := rfl

/-! ### Scanning encoder-produced tokens -/

/-- Scanning the escaped emission of `cs` inside a quoted token appends
exactly `cs` to the token accumulator. -/
theorem goL_escList (tr : Transcluder) :
    ∀ (cs : List Char) (acc : String) (ps : PState) (cur : List (String × VDFNode))
      (stk : List (List (String × VDFNode) × String)) (f : Nat) (rest : List Char),
      goL tr ((escList cs).length + f) ⟨.quo acc, ps, cur, stk⟩ (escList cs ++ rest)
        = goL tr f ⟨.quo ⟨acc.data ++ cs⟩, ps, cur, stk⟩ rest := by
  intro cs
  induction cs with
  | nil =>
      intro acc ps cur stk f rest
      show goL tr (0 + f) ⟨.quo acc, ps, cur, stk⟩ rest = _
      rw [Nat.zero_add, show (⟨acc.data ++ []⟩ : String) = acc by rw [List.append_nil]]
  | cons c cs ih =>
      intro acc ps cur stk f rest
      by_cases h1 : c = '\\'
      · subst h1
        have he : escList ('\\' :: cs) = '\\' :: '\\' :: escList cs := rfl
        rw [he,
          show ('\\' :: '\\' :: escList cs).length + f = (((escList cs).length + f) + 1) + 1 by
            simp only [List.length_cons]; omega]
        simp only [List.cons_append]
        rw [goL_next tr _ _ (step_quo_bslash acc ps cur stk),
          goL_next tr _ _ (step_quoEsc_bslash acc ps cur stk),
          ih (acc.push '\\') ps cur stk f rest,
          show (⟨(acc.push '\\').data ++ cs⟩ : String) = ⟨acc.data ++ '\\' :: cs⟩ by
            show (⟨(acc.data ++ ['\\']) ++ cs⟩ : String) = _
            rw [List.append_assoc]
            rfl]
      by_cases h2 : c = '"'
      · subst h2
        have he : escList ('"' :: cs) = '\\' :: '"' :: escList cs := rfl
        rw [he,
          show ('\\' :: '"' :: escList cs).length + f = (((escList cs).length + f) + 1) + 1 by
            simp only [List.length_cons]; omega]
        simp only [List.cons_append]
        rw [goL_next tr _ _ (step_quo_bslash acc ps cur stk),
          goL_next tr _ _ (step_quoEsc_quote acc ps cur stk),
          ih (acc.push '"') ps cur stk f rest,
          show (⟨(acc.push '"').data ++ cs⟩ : String) = ⟨acc.data ++ '"' :: cs⟩ by
            show (⟨(acc.data ++ ['"']) ++ cs⟩ : String) = _
            rw [List.append_assoc]
            rfl]
      by_cases h3 : c = '\t'
      · subst h3
        have he : escList ('\t' :: cs) = '\\' :: 't' :: escList cs := rfl
        rw [he,
          show ('\\' :: 't' :: escList cs).length + f = (((escList cs).length + f) + 1) + 1 by
            simp only [List.length_cons]; omega]
        simp only [List.cons_append]
        rw [goL_next tr _ _ (step_quo_bslash acc ps cur stk),
          goL_next tr _ _ (step_quoEsc_tab acc ps cur stk),
          ih (acc.push '\t') ps cur stk f rest,
          show (⟨(acc.push '\t').data ++ cs⟩ : String) = ⟨acc.data ++ '\t' :: cs⟩ by
            show (⟨(acc.data ++ ['\t']) ++ cs⟩ : String) = _
            rw [List.append_assoc]
            rfl]
      by_cases h4 : c = '\n'
      · subst h4
        have he : escList ('\n' :: cs) = '\\' :: 'n' :: escList cs := rfl
        rw [he,
          show ('\\' :: 'n' :: escList cs).length + f = (((escList cs).length + f) + 1) + 1 by
            simp only [List.length_cons]; omega]
        simp only [List.cons_append]
        rw [goL_next tr _ _ (step_quo_bslash acc ps cur stk),
          goL_next tr _ _ (step_quoEsc_nl acc ps cur stk),
          ih (acc.push '\n') ps cur stk f rest,
          show (⟨(acc.push '\n').data ++ cs⟩ : String) = ⟨acc.data ++ '\n' :: cs⟩ by
            show (⟨(acc.data ++ ['\n']) ++ cs⟩ : String) = _
            rw [List.append_assoc]
            rfl]
      · have he : escList (c :: cs) = c :: escList cs := by
          simp [escList, escChar, h1, h2, h3, h4]
        rw [he,
          show (c :: escList cs).length + f = ((escList cs).length + f) + 1 by
            simp only [List.length_cons]; omega]
        simp only [List.cons_append]
        rw [goL_next tr _ _ (step_quo_push h2 h1 acc ps cur stk),
          ih (acc.push c) ps cur stk f rest,
          show (⟨(acc.push c).data ++ cs⟩ : String) = ⟨acc.data ++ c :: cs⟩ by
            show (⟨(acc.data ++ [c]) ++ cs⟩ : String) = _
            rw [List.append_assoc]
            rfl]

/-- Scanning an encoder-quoted token in key position records it as the
pending key. -/
theorem goL_quoteTok_key (tr : Transcluder) (str : String) (hstr : str ≠ "#base")
    (cur : List (String × VDFNode)) (stk : List (List (String × VDFNode) × String))
    (f : Nat) (rest : List Char) :
    goL tr ((quoteTok str).length + f) ⟨.ground, .expectKey, cur, stk⟩ (quoteTok str ++ rest)
      = goL tr f ⟨.ground, .expectVal str, cur, stk⟩ rest := by
  show goL tr (('"' :: (escList str.data ++ ['"'])).length + f) _
      ('"' :: ((escList str.data ++ ['"']) ++ rest)) = _
  rw [show ('"' :: (escList str.data ++ ['"'])).length + f
        = (((escList str.data).length + (f + 1))) + 1 by
      simp; omega,
    goL_next tr _ _ (step_ground_quote_key cur stk),
    List.append_assoc,
    goL_escList tr str.data "" .expectKey cur stk (f + 1) (['"'] ++ rest)]
  show goL tr (f + 1) ⟨.quo str, .expectKey, cur, stk⟩ ('"' :: rest) = _
  rw [goL_next tr f rest (step_quo_close_key hstr cur stk)]

/-- Scanning an encoder-quoted token in value position binds it to the
pending key. -/
theorem goL_quoteTok_val (tr : Transcluder) (str k : String)
    (cur : List (String × VDFNode)) (stk : List (List (String × VDFNode) × String))
    (f : Nat) (rest : List Char) :
    goL tr ((quoteTok str).length + f) ⟨.ground, .expectVal k, cur, stk⟩ (quoteTok str ++ rest)
      = goL tr f ⟨.ground, .expectKey, upsert cur k (.scalar str), stk⟩ rest := by
  show goL tr (('"' :: (escList str.data ++ ['"'])).length + f) _
      ('"' :: ((escList str.data ++ ['"']) ++ rest)) = _
  rw [show ('"' :: (escList str.data ++ ['"'])).length + f
        = (((escList str.data).length + (f + 1))) + 1 by
      simp; omega,
    goL_next tr _ _ (step_ground_quote_val k cur stk),
    List.append_assoc,
    goL_escList tr str.data "" (.expectVal k) cur stk (f + 1) (['"'] ++ rest)]
  show goL tr (f + 1) ⟨.quo str, .expectVal k, cur, stk⟩ ('"' :: rest) = _
  rw [goL_next tr f rest (step_quo_close_val str k cur stk)]

/-! ### The decoder only produces well-formed documents -/

theorem nodeWF_of_entsWF {es : List (String × VDFNode)} (h : entsWF es) : nodeWF (.obj es) :=
  .obj es h.1 h.2.1 h.2.2

theorem entsWF_nil : entsWF [] := ⟨List.nodup_nil, by simp, by simp⟩

theorem stWF_init : stWF initD := ⟨entsWF_nil, trivial, by simp [initD]⟩

theorem entsWF_upsert {es : List (String × VDFNode)} {k : String} {v : VDFNode}
    (h : entsWF es) (hk : k ≠ "#base") (hv : nodeWF v) : entsWF (upsert es k v) := by
  obtain ⟨h1, h2, h3⟩ := h
  refine ⟨?_, ?_, ?_⟩
  · rw [upsert_keys]
    by_cases hm : k ∈ es.map Prod.fst
    · simp [hm, h1]
    · rw [if_neg hm]
      refine List.Nodup.append h1 (List.nodup_singleton k) ?_
      intro a ha hak
      simp only [List.mem_singleton] at hak
      subst hak
      exact hm ha
  · intro p hp
    rcases mem_upsert es k v p hp with h' | h'
    · exact h2 p h'
    · rw [h']; exact hk
  · intro p hp
    rcases mem_upsert es k v p hp with h' | h'
    · exact h3 p h'
    · rw [h']; exact hv

theorem emitTok_wf {q : Bool} {text : String} {s : DState} (hs : stWF s) :
    resWF (emitTok q text s) := by
  obtain ⟨tok, ps, cur, stk⟩ := s
  obtain ⟨h1, h2, h3⟩ := hs
  cases ps with
  | expectKey =>
      show resWF (if text = "#base" then _ else _)
      split
      · exact ⟨h1, trivial, h3⟩
      · next hne => exact ⟨h1, hne, h3⟩
  | expectVal k =>
      exact ⟨entsWF_upsert h1 h2 (nodeWF.scalar text), trivial, h3⟩
  | expectDirName =>
      show resWF (if q then _ else _)
      split
      · exact ⟨h1, trivial, h3⟩
      · trivial
  | expectDirEnd n => trivial

theorem applyLF_wf {s : DState} (hs : stWF s) : resWF (applyLF s) := by
  obtain ⟨tok, ps, cur, stk⟩ := s
  obtain ⟨h1, h2, h3⟩ := hs
  cases ps with
  | expectDirEnd n => exact ⟨h1, trivial, h3⟩
  | expectDirName => trivial
  | expectKey => exact ⟨h1, trivial, h3⟩
  | expectVal k => exact ⟨h1, h2, h3⟩

theorem applyOpen_wf {s : DState} (hs : stWF s) : resWF (applyOpen s) := by
  obtain ⟨tok, ps, cur, stk⟩ := s
  obtain ⟨h1, h2, h3⟩ := hs
  cases ps with
  | expectVal k =>
      refine ⟨entsWF_nil, trivial, ?_⟩
      intro fr hfr
      rcases List.mem_cons.mp hfr with h' | h'
      · rw [h']; exact ⟨h1, h2⟩
      · exact h3 fr h'
  | expectKey => trivial
  | expectDirName => trivial
  | expectDirEnd n => trivial

theorem applyClose_wf {s : DState} (hs : stWF s) : resWF (applyClose s) := by
  obtain ⟨tok, ps, cur, stk⟩ := s
  obtain ⟨h1, h2, h3⟩ := hs
  cases ps with
  | expectKey =>
      cases stk with
      | nil => trivial
      | cons fr rest =>
          obtain ⟨pc, k⟩ := fr
          have hfr := h3 (pc, k) (List.mem_cons_self _ _)
          refine ⟨entsWF_upsert hfr.1 hfr.2 (nodeWF_of_entsWF h1), trivial, ?_⟩
          intro fr' hfr'
          exact h3 fr' (List.mem_cons_of_mem _ hfr')
  | expectVal k => trivial
  | expectDirName => trivial
  | expectDirEnd n => trivial

theorem stepGround_wf {s : DState} (hs : stWF s) (c : Char) : resWF (stepGround s c) := by
  obtain ⟨tok, ps, cur, stk⟩ := s
  unfold stepGround
  split
  · exact hs
  split
  · exact applyLF_wf hs
  cases ps with
  | expectDirEnd n => trivial
  | expectKey =>
      show resWF
        (if c = '\x7b' then applyOpen ⟨tok, .expectKey, cur, stk⟩
         else if c = '\x7d' then applyClose ⟨tok, .expectKey, cur, stk⟩
         else if c = '"' then .next ⟨.quo "", .expectKey, cur, stk⟩
         else if c = '/' then .next ⟨.comment, .expectKey, cur, stk⟩
         else if c = '\\' then .next ⟨.unqEsc "", .expectKey, cur, stk⟩
         else .next ⟨.unq (String.singleton c), .expectKey, cur, stk⟩)
      split
      · exact applyOpen_wf hs
      split
      · exact applyClose_wf hs
      split
      · exact hs
      split
      · exact hs
      split
      · exact hs
      · exact hs
  | expectVal k =>
      show resWF
        (if c = '\x7b' then applyOpen ⟨tok, .expectVal k, cur, stk⟩
         else if c = '\x7d' then applyClose ⟨tok, .expectVal k, cur, stk⟩
         else if c = '"' then .next ⟨.quo "", .expectVal k, cur, stk⟩
         else if c = '/' then .next ⟨.comment, .expectVal k, cur, stk⟩
         else if c = '\\' then .next ⟨.unqEsc "", .expectVal k, cur, stk⟩
         else .next ⟨.unq (String.singleton c), .expectVal k, cur, stk⟩)
      split
      · exact applyOpen_wf hs
      split
      · exact applyClose_wf hs
      split
      · exact hs
      split
      · exact hs
      split
      · exact hs
      · exact hs
  | expectDirName =>
      show resWF
        (if c = '\x7b' then applyOpen ⟨tok, .expectDirName, cur, stk⟩
         else if c = '\x7d' then applyClose ⟨tok, .expectDirName, cur, stk⟩
         else if c = '"' then .next ⟨.quo "", .expectDirName, cur, stk⟩
         else if c = '/' then .next ⟨.comment, .expectDirName, cur, stk⟩
         else if c = '\\' then .next ⟨.unqEsc "", .expectDirName, cur, stk⟩
         else .next ⟨.unq (String.singleton c), .expectDirName, cur, stk⟩)
      split
      · exact applyOpen_wf hs
      split
      · exact applyClose_wf hs
      split
      · exact hs
      split
      · exact hs
      split
      · exact hs
      · exact hs

theorem step_wf {s : DState} (hs : stWF s) (c : Char) : resWF (step s c) := by
  obtain ⟨tok, ps, cur, stk⟩ := s
  cases tok with
  | ground => exact stepGround_wf hs c
  | unq acc =>
      show resWF
        (if isWSP c then emitTok false acc ⟨.unq acc, ps, cur, stk⟩
         else if c = '\n' then
           match emitTok false acc ⟨.unq acc, ps, cur, stk⟩ with
           | .next s' => applyLF s'
           | r => r
         else if c = '\x7b' then
           match emitTok false acc ⟨.unq acc, ps, cur, stk⟩ with
           | .next s' => applyOpen s'
           | r => r
         else if c = '\x7d' then
           match emitTok false acc ⟨.unq acc, ps, cur, stk⟩ with
           | .next s' => applyClose s'
           | r => r
         else if c = '/' then
           match emitTok false acc ⟨.unq acc, ps, cur, stk⟩ with
           | .next s' => .next { s' with tok := .comment }
           | r => r
         else if c = '"' then .err (.fmt "unexpected quote in unquoted token")
         else if c = '\\' then .next ⟨.unqEsc acc, ps, cur, stk⟩
         else .next ⟨.unq (acc.push c), ps, cur, stk⟩)
      have h := @emitTok_wf false acc ⟨.unq acc, ps, cur, stk⟩ hs
      split
      · exact h
      split
      · cases he : emitTok false acc (⟨.unq acc, ps, cur, stk⟩ : DState) with
        | next s' =>
            rw [he] at h
            exact applyLF_wf h
        | splice n s' =>
            rw [he] at h
            exact h
        | err e => trivial
      split
      · cases he : emitTok false acc (⟨.unq acc, ps, cur, stk⟩ : DState) with
        | next s' =>
            rw [he] at h
            exact applyOpen_wf h
        | splice n s' =>
            rw [he] at h
            exact h
        | err e => trivial
      split
      · cases he : emitTok false acc (⟨.unq acc, ps, cur, stk⟩ : DState) with
        | next s' =>
            rw [he] at h
            exact applyClose_wf h
        | splice n s' =>
            rw [he] at h
            exact h
        | err e => trivial
      split
      · cases he : emitTok false acc (⟨.unq acc, ps, cur, stk⟩ : DState) with
        | next s' =>
            rw [he] at h
            exact h
        | splice n s' =>
            rw [he] at h
            exact h
        | err e => trivial
      split
      · trivial
      split
      · exact hs
      · exact hs
  | unqEsc acc =>
      show resWF
        (match escMap c with
         | some d => .next ⟨.unq (acc.push d), ps, cur, stk⟩
         | none => .err (.fmt "unrecognized escape sequence"))
      cases escMap c with
      | some d => exact hs
      | none => trivial
  | quo acc =>
      show resWF
        (if c = '"' then emitTok true acc ⟨.quo acc, ps, cur, stk⟩
         else if c = '\\' then .next ⟨.quoEsc acc, ps, cur, stk⟩
         else .next ⟨.quo (acc.push c), ps, cur, stk⟩)
      split
      · exact emitTok_wf hs
      split
      · exact hs
      · exact hs
  | quoEsc acc =>
      show resWF
        (match escMap c with
         | some d => .next ⟨.quo (acc.push d), ps, cur, stk⟩
         | none => .err (.fmt "unrecognized escape sequence"))
      cases escMap c with
      | some d => exact hs
      | none => trivial
  | comment =>
      show resWF
        (if c = '\n' then applyLF ⟨.ground, ps, cur, stk⟩ else .next ⟨.comment, ps, cur, stk⟩)
      split
      · exact applyLF_wf hs
      · exact hs

theorem goL_wf (tr : Transcluder) :
    ∀ (f : Nat) (s : DState) (cs : List Char) (p : DState × Nat),
      stWF s → goL tr f s cs = .ok p → stWF p.1 := by
  intro f
  induction f with
  | zero =>
      intro s cs p hs h
      cases cs with
      | nil =>
          rw [goL_nil] at h
          cases h
          exact hs
      | cons c cs' =>
          rw [goL_zero] at h
          simp at h
  | succ f ih =>
      intro s cs p hs h
      cases cs with
      | nil =>
          rw [goL_nil] at h
          cases h
          exact hs
      | cons c cs' =>
          have hr := step_wf hs c
          cases hstep : step s c with
          | next s₁ =>
              rw [goL_next tr f cs' hstep] at h
              rw [hstep] at hr
              exact ih s₁ cs' p hr h
          | splice n s₁ =>
              cases htr : tr n with
              | ok frags =>
                  rw [goL_splice_ok tr f cs' hstep htr] at h
                  rw [hstep] at hr
                  exact ih s₁ _ p hr h
              | error m =>
                  rw [goL_splice_err tr f cs' hstep htr] at h
                  simp at h
          | err e =>
              rw [goL_err tr f cs' hstep] at h
              simp at h

theorem completeD_ok {s : DState} {es : List (String × VDFNode)}
    (h : completeD s = .ok es) :
    es = s.cur ∧ s.tok = .ground ∧ s.ps = .expectKey ∧ s.stk = [] := by
  obtain ⟨tok, ps, cur, stk⟩ := s
  cases tok <;> cases ps <;> cases stk <;> simp_all [completeD]

theorem decodeL_wf {tr : Transcluder} {f : Nat} {cs : List Char}
    {es : List (String × VDFNode)} (h : decodeL tr f cs = .ok es) : entsWF es := by
  unfold decodeL at h
  cases hgo : goL tr f initD cs with
  | error e =>
      rw [hgo] at h
      exact Except.noConfusion h
  | ok p =>
      rw [hgo] at h
      have h' : completeD p.1 = .ok es := h
      have hwf := goL_wf tr f initD cs p stWF_init hgo
      obtain ⟨he, _, _, _⟩ := completeD_ok h'
      rw [he]
      exact hwf.1

/-! ### Decoding the encoder's output -/

theorem entsWF_cons {k : String} {n : VDFNode} {es : List (String × VDFNode)}
    (h : entsWF ((k, n) :: es)) :
    k ≠ "#base" ∧ nodeWF n ∧ entsWF es ∧ k ∉ es.map Prod.fst := by
  obtain ⟨h1, h2, h3⟩ := h
  rw [List.map_cons, List.nodup_cons] at h1
  refine ⟨h2 (k, n) (List.mem_cons_self _ _), h3 (k, n) (List.mem_cons_self _ _),
    ⟨h1.2, ?_, ?_⟩, h1.1⟩
  · intro p hp
    exact h2 p (List.mem_cons_of_mem _ hp)
  · intro p hp
    exact h3 p (List.mem_cons_of_mem _ hp)

theorem nodeWF_obj_inv {es : List (String × VDFNode)} (h : nodeWF (.obj es)) : entsWF es := by
  cases h with
  | obj es h1 h2 h3 => exact ⟨h1, h2, h3⟩

/-- Decoding the encoder's emission of a well-formed entry list, from a
key-expecting ground state whose current object has no key in common with
the emitted entries, appends exactly those entries to the current object
and returns to the same kind of state. -/
theorem goL_encE (tr : Transcluder) :
    ∀ (N : Nat) (es : List (String × VDFNode)), sizeOf es ≤ N → entsWF es →
      ∀ (cur : List (String × VDFNode)) (stk : List (List (String × VDFNode) × String))
        (f : Nat) (rest : List Char),
        (∀ k ∈ es.map Prod.fst, k ∉ cur.map Prod.fst) →
        goL tr ((encE es).length + f) ⟨.ground, .expectKey, cur, stk⟩ (encE es ++ rest)
          = goL tr f ⟨.ground, .expectKey, cur ++ es, stk⟩ rest := by
  intro N
  induction N with
  | zero =>
      intro es hsz
      have h1 : 1 ≤ sizeOf es := by cases es <;> simp_arith
      exact absurd (Nat.le_trans h1 hsz) (by decide)
  | succ N ih =>
      intro es hsz hwf cur stk f rest hdisj
      cases es with
      | nil =>
          simp only [encE, List.length_nil, Nat.zero_add, List.nil_append, List.append_nil]
      | cons e es' =>
          obtain ⟨k, n⟩ := e
          obtain ⟨hk, hn, hwf', hknot⟩ := entsWF_cons hwf
          have hsz' : sizeOf es' ≤ N := by
            have hlt : sizeOf es' < sizeOf ((k, n) :: es') := by simp
            omega
          cases n with
          | scalar v =>
              have hd : ∀ k' ∈ es'.map Prod.fst,
                  k' ∉ (cur ++ [(k, VDFNode.scalar v)]).map Prod.fst := by
                intro k' hk'
                have h1 : k' ∉ cur.map Prod.fst := hdisj k' (by simp [hk'])
                intro hmem
                rw [List.map_append] at hmem
                rcases List.mem_append.mp hmem with hm | hm
                · exact h1 hm
                · simp at hm
                  exact hknot (hm ▸ hk')
              have hlist : encE ((k, VDFNode.scalar v) :: es') ++ rest
                  = quoteTok k ++ (' ' :: (quoteTok v ++ ('\n' :: (encE es' ++ rest)))) := by
                show ((quoteTok k ++ (' ' :: (quoteTok v ++ ['\n']))) ++ encE es') ++ rest = _
                simp
              have hfuel : (encE ((k, VDFNode.scalar v) :: es')).length + f
                  = (quoteTok k).length
                      + (((quoteTok v).length + (((encE es').length + f) + 1)) + 1) := by
                show ((quoteTok k ++ (' ' :: (quoteTok v ++ ['\n']))) ++ encE es').length + f = _
                simp
                omega
              rw [hfuel, hlist,
                goL_quoteTok_key tr k hk cur stk _ _,
                goL_next tr _ _ (step_ground_space_val k cur stk),
                goL_quoteTok_val tr v k cur stk _ _,
                goL_next tr _ _ (step_ground_lf_key _ stk),
                upsert_of_not_mem (VDFNode.scalar v) (hdisj k (by simp)),
                ih es' hsz' hwf' (cur ++ [(k, VDFNode.scalar v)]) stk f rest hd,
                List.append_assoc]
              rfl
          | obj sub =>
              have hsubwf : entsWF sub := nodeWF_obj_inv hn
              have hszsub : sizeOf sub ≤ N := by
                have hlt : sizeOf sub < sizeOf ((k, VDFNode.obj sub) :: es') := by
                  simp
                  omega
                omega
              have hd : ∀ k' ∈ es'.map Prod.fst,
                  k' ∉ (cur ++ [(k, VDFNode.obj sub)]).map Prod.fst := by
                intro k' hk'
                have h1 : k' ∉ cur.map Prod.fst := hdisj k' (by simp [hk'])
                intro hmem
                rw [List.map_append] at hmem
                rcases List.mem_append.mp hmem with hm | hm
                · exact h1 hm
                · simp at hm
                  exact hknot (hm ▸ hk')
              have hlist : encE ((k, VDFNode.obj sub) :: es') ++ rest
                  = quoteTok k ++ ('\n' :: ('\x7b' :: ('\n' ::
                      (encE sub ++ ('\x7d' :: ('\n' :: (encE es' ++ rest))))))) := by
                show ((quoteTok k ++ ('\n' :: ('\x7b' :: ('\n' ::
                    (encE sub ++ ('\x7d' :: ('\n' :: []))))))) ++ encE es') ++ rest = _
                simp
              have hfuel : (encE ((k, VDFNode.obj sub) :: es')).length + f
                  = (quoteTok k).length
                      + (((((encE sub).length
                          + ((((encE es').length + f) + 1) + 1)) + 1) + 1) + 1) := by
                show ((quoteTok k ++ ('\n' :: ('\x7b' :: ('\n' ::
                    (encE sub ++ ('\x7d' :: ('\n' :: []))))))) ++ encE es').length + f = _
                simp
                omega
              rw [hfuel, hlist,
                goL_quoteTok_key tr k hk cur stk _ _,
                goL_next tr _ _ (step_ground_lf_val k cur stk),
                goL_next tr _ _ (step_ground_open_val k cur stk),
                goL_next tr _ _ (step_ground_lf_key [] ((cur, k) :: stk)),
                ih sub hszsub hsubwf [] ((cur, k) :: stk) _ _ (by simp),
                List.nil_append,
                goL_next tr _ _ (step_ground_close_key sub cur k stk),
                goL_next tr _ _ (step_ground_lf_key _ stk),
                upsert_of_not_mem (VDFNode.obj sub) (hdisj k (by simp)),
                ih es' hsz' hwf' (cur ++ [(k, VDFNode.obj sub)]) stk f rest hd,
                List.append_assoc]
              rfl

/-- C1 -- Round-trip: decoding the text produced by the encoder from any
document the decoder can produce yields exactly that document (same keys
in the same order, same nesting, same scalar values); the re-decode
succeeds with any transcluder, since encoder output contains no
transclusion directive. -/
theorem c1_roundtrip (tr tr₂ : Transcluder) (f : Nat) (t : List Char)
    (es : List (String × VDFNode)) (h : decodeL tr f t = .ok es) :
    decodeS tr₂ (dumps es).length (dumps es) = .ok es := by
  have hwf : entsWF es := decodeL_wf h
  show decodeL tr₂ (dumps es).length (encE es) = .ok es
  unfold decodeL
  have hrun := goL_encE tr₂ (sizeOf es) es (Nat.le_refl _) hwf [] [] 0 [] (by simp)
  simp only [List.append_nil, Nat.add_zero, List.nil_append] at hrun
  show (goL tr₂ ((encE es).length) initD (encE es)).bind (fun p => completeD p.1) = .ok es
  rw [show initD = (⟨.ground, .expectKey, [], []⟩ : DState) from rfl, hrun, goL_nil]
  rfl

/-- Witness for C1 at a concrete decoder-produced document. -/
theorem c1_roundtrip_witness :
    decodeL VDFDisabledTranscluder 20 ("\"a\" \"1\"").data = .ok [("a", .scalar "1")] ∧
    decodeS VDFDisabledTranscluder (dumps [("a", .scalar "1")]).length
        (dumps [("a", .scalar "1")]) = .ok [("a", .scalar "1")] :=
  ⟨rfl, c1_roundtrip VDFDisabledTranscluder VDFDisabledTranscluder 20
    ("\"a\" \"1\"").data [("a", .scalar "1")] rfl⟩

end VDF
